import Mathlib

/-!
Shallow embedding of a streaming text-to-speech relay server.

The server accepts synthesis requests over persistent client connections,
opens an upstream streaming synthesis call per request, relays the audio
chunks back to the client with ordering metadata, memoizes completed
results in a bounded insertion-ordered cache, and serializes requests of
one connection through a FIFO queue guarded by a processing flag.

Two source variants are embedded:
- the envelope-framing variant (server.js): JSON control message per chunk
  followed by the raw bytes, plus the result cache;
- the binary-packed variant (part_000): one binary message per chunk with a
  4-byte little-endian sequence number and a 1-byte last-chunk flag, plus
  the per-connection request queue.
-/

/-- A synthesis request as destructured from the inbound JSON message
(fields text, languageCode, ssmlGender, name with defaults applied). -/
structure SynthRequest where
  text : String
  languageCode : String
  ssmlGender : String
  name : String
deriving DecidableEq

/-- Observable behaviour of one upstream streamingSynthesize call: the audio
chunks delivered by data events (only responses carrying audioContent),
followed by either a normal end event or an error event with a message. -/
inductive Outcome where
  | success (chunks : List (List Nat))
  | failure (chunks : List (List Nat)) (errMsg : String)
deriving DecidableEq

/-- The chunks delivered by the upstream call before it settled. -/
def chunksOf : Outcome → List (List Nat)
  | .success cs => cs
  | .failure cs _ => cs

/-- The audioCache Map, as an insertion-ordered association list
(JS Map iteration order is insertion order; set on an existing key keeps
its original position). -/
abbrev Cache := List (String × List Nat)

/-- audioCache.has(k). -/
def mapHas (c : Cache) (k : String) : Bool :=
  c.any fun p => p.1 == k

/-- audioCache.get(k). -/
def mapGet (c : Cache) (k : String) : Option (List Nat) :=
  (c.find? fun p => p.1 == k).map (·.2)

/-- audioCache.set(k, v): update in place if the key exists, otherwise
append at the end of the insertion order. -/
def mapSet (c : Cache) (k : String) (v : List Nat) : Cache :=
  if mapHas c k then c.map fun p => if p.1 == k then (k, v) else p
  else c ++ [(k, v)]

/-- audioCache.delete(k): removes the (single) entry with this key. -/
def mapDelete (c : Cache) (k : String) : Cache :=
  c.eraseP fun p => p.1 == k

/-- audioCache.keys().next().value: the earliest-inserted key. -/
def firstKey (c : Cache) : Option String :=
  c.head?.map (·.1)

def CACHE_MAX_SIZE : Nat := 100

/-- The caching step of the stream end handler in server.js:
if the complete audio is under 1 MiB, evict the earliest-inserted entry
when the cache is at capacity, then insert; otherwise do nothing. -/
def cacheInsert (c : Cache) (k : String) (v : List Nat) : Cache :=
  if v.length < 1024 * 1024 then
    let c1 := if CACHE_MAX_SIZE ≤ c.length then
        match firstKey c with
        | some fk => mapDelete c fk
        | none => c
      else c
    mapSet c1 k v
  else c

/-- The cache key built in server.js:
ws_ text _ languageCode _ ssmlGender _ name _LINEAR16, joined with
underscores and no escaping. -/
def cacheKey (r : SynthRequest) : String :=
  "ws_" ++ r.text ++ "_" ++ r.languageCode ++ "_" ++ r.ssmlGender ++ "_"
    ++ r.name ++ "_LINEAR16"

/-- Messages the envelope variant sends to the client. -/
inductive SMsg where
  | audioInfo (contentType : String) (cached : Bool)
  | chunkHeader (sequenceNumber : Nat) (isLastChunk : Bool)
  | audioData (bytes : List Nat)
  | audioComplete
  | errorMsg (message : String)
deriving DecidableEq

/-- The messages the data handler of server.js emits for a chunk list,
starting at a given sequence number: a chunk header (isLastChunk false)
then the raw audio bytes, incrementing the sequence number per chunk. -/
def chunkMsgs : List (List Nat) → Nat → List SMsg
  | [], _ => []
  | c :: cs, n => SMsg.chunkHeader n false :: SMsg.audioData c :: chunkMsgs cs (n + 1)

def ctype : String := "audio/l16;rate=24000"

/-- The complete handling of one synthesize-streaming message in server.js,
given the current cache and the upstream call's outcome: the messages sent
to the client and the cache afterwards.

Cache hit: audio-info with cached true, a single header with sequence
number 0 and isLastChunk true, the stored bytes, audio-complete; no
upstream call is made (the outcome argument is ignored).

Cache miss: audio-info, then per delivered chunk a header (sequence
numbers from 0) and the bytes; on end a final header (isLastChunk true)
and audio-complete, then the caching step guarded by
audioChunks.length > 0; on error the error message, and the end handler
(hence the caching step) never runs. -/
def handleSynthServer (cache : Cache) (r : SynthRequest) (out : Outcome) :
    List SMsg × Cache :=
  let k := cacheKey r
  if mapHas cache k then
    ([SMsg.audioInfo ctype true, SMsg.chunkHeader 0 true,
      SMsg.audioData ((mapGet cache k).getD []), SMsg.audioComplete], cache)
  else
    match out with
    | .success cs =>
        (SMsg.audioInfo ctype false :: chunkMsgs cs 0
           ++ [SMsg.chunkHeader cs.length true, SMsg.audioComplete],
         if 0 < cs.length then cacheInsert cache k cs.flatten else cache)
    | .failure cs e =>
        (SMsg.audioInfo ctype false :: chunkMsgs cs 0 ++ [SMsg.errorMsg e], cache)

/-- Sequential handling of a list of requests (with their upstream
outcomes) against one cache: concatenated client messages and final
cache. -/
def runServer (cache : Cache) : List (SynthRequest × Outcome) → List SMsg × Cache
  | [] => ([], cache)
  | (r, o) :: rest =>
      let p := handleSynthServer cache r o
      let q := runServer p.2 rest
      (p.1 ++ q.1, q.2)

/-- The (sequenceNumber, isLastChunk) pairs of the chunk headers in a
message trace, in emission order. -/
def headerPairs (ms : List SMsg) : List (Nat × Bool) :=
  ms.filterMap fun m => match m with
    | SMsg.chunkHeader n b => some (n, b)
    | _ => none

/-- The sequence numbers of the chunk headers in emission order. -/
def headerSeqs (ms : List SMsg) : List Nat :=
  (headerPairs ms).map Prod.fst

/-- The raw audio payloads in a message trace, in emission order. -/
def dataPayloads (ms : List SMsg) : List (List Nat) :=
  ms.filterMap fun m => match m with
    | SMsg.audioData b => some b
    | _ => none

/-- Messages the binary-packed variant (part_000) sends to the client. -/
inductive BMsg where
  | audioInfo (contentType : String)
  | binary (bytes : List Nat)
  | jsonComplete
  | jsonError (message : String)
deriving DecidableEq

/-- Buffer.writeInt32LE: the four little-endian bytes of a sequence
number (faithful for values below 2 to the 31, the range writeInt32LE
accepts). -/
def toLE32 (n : Nat) : List Nat :=
  [n % 256, n / 256 % 256, n / 65536 % 256, n / 16777216 % 256]

/-- Reads a 4-byte little-endian number back from a byte list. -/
def decodeLE32 (b : List Nat) : Nat :=
  b.getD 0 0 + 256 * b.getD 1 0 + 65536 * b.getD 2 0 + 16777216 * b.getD 3 0

/-- The binary messages the data handler of part_000 emits for a chunk
list starting at connection sequence number s: 4-byte little-endian
sequence number, 1-byte flag 0 (not last), then the audio bytes,
incrementing the connection counter per chunk. -/
def binChunkMsgs : List (List Nat) → Nat → List BMsg
  | [], _ => []
  | c :: cs, s => BMsg.binary (toLE32 s ++ [0] ++ c) :: binChunkMsgs cs (s + 1)

/-- One synthesizeText call of part_000, given the connection's current
sequence counter and the upstream outcome: the messages sent and the
counter afterwards.

On end: a final binary message with the current counter, flag byte 1 and
an empty audio payload, then the audio-complete JSON; the end handler
does not increment the counter. On error: the error JSON from the stream
error handler; no terminal binary message, no audio-complete. -/
def synthesizeText (s0 : Nat) (out : Outcome) : List BMsg × Nat :=
  match out with
  | .success cs =>
      (BMsg.audioInfo ctype :: binChunkMsgs cs s0
         ++ [BMsg.binary (toLE32 (s0 + cs.length) ++ [1] ++ []), BMsg.jsonComplete],
       s0 + cs.length)
  | .failure cs e =>
      (BMsg.audioInfo ctype :: binChunkMsgs cs s0 ++ [BMsg.jsonError e],
       s0 + cs.length)

/-- A connection's lifetime in the binary variant: the sequence counter
starts at 0 when the connection is created (let sequenceNumber = 0) and
is threaded through the successive synthesizeText calls. -/
def runBinary (s0 : Nat) : List Outcome → List BMsg × Nat
  | [] => ([], s0)
  | o :: os =>
      let p := synthesizeText s0 o
      let q := runBinary p.2 os
      (p.1 ++ q.1, q.2)

/-- The payloads of the binary messages in a trace, in emission order. -/
def binMsgs (ms : List BMsg) : List (List Nat) :=
  ms.filterMap fun m => match m with
    | BMsg.binary b => some b
    | _ => none

/-- The sequence numbers carried in the 4-byte headers of the binary
messages of a trace, in emission order. -/
def msgSeqs (ms : List BMsg) : List Nat :=
  (binMsgs ms).map fun b => decodeLE32 (b.take 4)

/-- Total number of chunks delivered across a list of outcomes. -/
def totalChunks (os : List Outcome) : Nat :=
  (os.map fun o => (chunksOf o).length).sum

/-- Events recorded by the queue model of part_000: a request's
synthesizeText call starting, and its settling (ok true: the promise
resolved; ok false: it rejected and the catch sent the error message). -/
inductive QEvent where
  | started (r : SynthRequest)
  | finished (r : SynthRequest) (ok : Bool) (msg : String)
deriving DecidableEq

/-- External events driving one connection of part_000: a
synthesize-streaming message arriving, and the awaited synthesizeText of
the in-flight request settling. -/
inductive ExtEvent where
  | message (r : SynthRequest)
  | settle (ok : Bool) (msg : String)
deriving DecidableEq

/-- Per-connection queue state of part_000. processingQueue and
isProcessing are the source variables; active is the multiset of upstream
synthesis calls currently in flight (so that having two at once is
expressible); events logs starts and settlements; submitted records the
requests in arrival order. -/
structure ConnState where
  processingQueue : List SynthRequest
  isProcessing : Bool
  active : List SynthRequest
  events : List QEvent
  submitted : List SynthRequest
deriving DecidableEq

/-- The requests of the started events, in order. -/
def startedOf (es : List QEvent) : List SynthRequest :=
  es.filterMap fun e => match e with
    | QEvent.started r => some r
    | _ => none

/-- The requests of the finished events with their outcome flag, in
order. -/
def finishedOf (es : List QEvent) : List (SynthRequest × Bool) :=
  es.filterMap fun e => match e with
    | QEvent.finished r ok _ => some (r, ok)
    | _ => none

/-- The requests carried by the message events, in order. -/
def submittedOf (evs : List ExtEvent) : List SynthRequest :=
  evs.filterMap fun e => match e with
    | ExtEvent.message r => some r
    | _ => none

/-- processNextInQueue of part_000: return if the queue is empty or a
request is already processing; otherwise set the flag, shift the head
and start its synthesizeText call. -/
def processNextInQueue (s : ConnState) : ConnState :=
  if s.processingQueue.isEmpty || s.isProcessing then s
  else
    match s.processingQueue with
    | [] => s
    | h :: t =>
        { processingQueue := t, isProcessing := true, active := s.active ++ [h],
          events := s.events ++ [QEvent.started h], submitted := s.submitted }

/-- One event-loop turn of a part_000 connection. A message push appends
to the queue and triggers processNextInQueue when not processing. A
settle resumes the awaited synthesizeText: the finally clause clears the
flag and, when the queue is nonempty, synchronously runs
processNextInQueue; a settle with no call in flight changes nothing. -/
def stepQ (s : ConnState) (e : ExtEvent) : ConnState :=
  match e with
  | .message r =>
      let s1 : ConnState :=
        { s with processingQueue := s.processingQueue ++ [r],
                 submitted := s.submitted ++ [r] }
      if s1.isProcessing then s1 else processNextInQueue s1
  | .settle ok msg =>
      match s.active with
      | [] => s
      | r :: rest =>
          let s1 : ConnState :=
            { s with active := rest, isProcessing := false,
                     events := s.events ++ [QEvent.finished r ok msg] }
          if s1.processingQueue.isEmpty then s1 else processNextInQueue s1

/-- The state of a fresh connection of part_000. -/
def initConn : ConnState :=
  { processingQueue := [], isProcessing := false, active := [],
    events := [], submitted := [] }

/-- A connection's whole observable history, as a fold of the event
turns over the fresh state. -/
def runQueue (evs : List ExtEvent) : ConnState :=
  evs.foldl stepQ initConn

/-- A concrete request with the default voice parameters. -/
def reqA : SynthRequest := ⟨"hello", "en-IN", "NEUTRAL", "en-IN-Journey-O"⟩

/-- A second concrete request, distinct text. -/
def reqB : SynthRequest := ⟨"world", "en-IN", "NEUTRAL", "en-IN-Journey-O"⟩

/-- A third concrete request, distinct text. -/
def reqC : SynthRequest := ⟨"again", "en-IN", "NEUTRAL", "en-IN-Journey-O"⟩

/-- Text a_b with languageCode c: underscore-joined key ws_a_b_c_... -/
def reqU : SynthRequest := ⟨"a_b", "c", "NEUTRAL", "voice"⟩

/-- Text a with languageCode b_c: the same underscore-joined key. -/
def reqV : SynthRequest := ⟨"a", "b_c", "NEUTRAL", "voice"⟩

/-- A cache already holding CACHE_MAX_SIZE entries. -/
def c100 : Cache := List.replicate 100 ("x", ([] : List Nat))

/-- The connection-queue invariant: the processing flag is the exact guard
of the in-flight call (no call in flight when it is clear), at most one
upstream call is in flight, the submission order is the processing order
(started requests followed by the still-queued ones), and settlements
happen in start order (finished requests followed by the in-flight
ones). -/
def QInv (s : ConnState) : Prop :=
  (s.isProcessing = false → s.active = [])
  ∧ s.active.length ≤ 1
  ∧ s.submitted = startedOf s.events ++ s.processingQueue
  ∧ startedOf s.events = (finishedOf s.events).map Prod.fst ++ s.active

theorem mapSet_length (c : Cache) (k : String) (v : List Nat) :
    (mapSet c k v).length = if mapHas c k then c.length else c.length + 1 := by
  unfold mapSet
  split <;> simp

theorem mapDelete_head (p : String × List Nat) (t : Cache) :
    mapDelete (p :: t) p.1 = t := by
  simp [mapDelete, List.eraseP_cons_of_pos]

theorem mapHas_mapDelete (c : Cache) (k fk : String) (h : mapHas c k = false) :
    mapHas (mapDelete c fk) k = false := by
  cases hE : mapHas (mapDelete c fk) k with
  | false => rfl
  | true =>
    exfalso
    rw [mapHas, List.any_eq_true] at hE
    obtain ⟨a, ha, hpa⟩ := hE
    have hmem : a ∈ c := (List.eraseP_sublist c).mem ha
    rw [mapHas, List.any_eq_false] at h
    exact h a hmem hpa

theorem mapGet_append_fresh (t : Cache) (k : String) (v : List Nat)
    (h : mapHas t k = false) : mapGet (t ++ [(k, v)]) k = some v := by
  induction t with
  | nil => simp [mapGet, List.find?]
  | cons p t ih =>
    rw [mapHas, List.any_cons, Bool.or_eq_false_iff] at h
    obtain ⟨h1, h2⟩ := h
    rw [List.cons_append, mapGet, List.find?]
    rw [h1]
    exact ih h2

theorem mapGet_cacheInsert_fresh (c : Cache) (k : String) (v : List Nat)
    (hsz : v.length < 1024 * 1024) (h : mapHas c k = false) :
    mapGet (cacheInsert c k v) k = some v := by
  unfold cacheInsert
  rw [if_pos hsz]
  have h1 : mapHas (if CACHE_MAX_SIZE ≤ c.length then
      match firstKey c with
      | some fk => mapDelete c fk
      | none => c
    else c) k = false := by
    split
    · cases c with
      | nil => simpa using h
      | cons p t =>
        simp only [firstKey, List.head?_cons, Option.map_some']
        exact mapHas_mapDelete _ _ _ h
    · exact h
  rw [mapSet, if_neg (by simp [h1])]
  exact mapGet_append_fresh _ _ _ h1

theorem cacheInsert_length_le (c : Cache) (k : String) (v : List Nat)
    (h : c.length ≤ CACHE_MAX_SIZE) :
    (cacheInsert c k v).length ≤ CACHE_MAX_SIZE := by
  unfold cacheInsert
  split
  · split
    · next hcap =>
      cases c with
      | nil => simp [CACHE_MAX_SIZE] at hcap
      | cons p t =>
        simp only [firstKey, List.head?_cons, Option.map_some', mapDelete_head]
        rw [mapSet_length]
        have : t.length + 1 ≤ CACHE_MAX_SIZE := by simpa using h
        split <;> omega
    · next hcap =>
      rw [mapSet_length]
      rw [Nat.not_le] at hcap
      split <;> omega
  · exact h

theorem cacheInsert_foldl_le (ops : List (String × List Nat)) :
    ∀ c : Cache, c.length ≤ CACHE_MAX_SIZE →
      (ops.foldl (fun c p => cacheInsert c p.1 p.2) c).length ≤ CACHE_MAX_SIZE := by
  induction ops with
  | nil => intro c h; exact h
  | cons p ps ih =>
    intro c h
    exact ih _ (cacheInsert_length_le c p.1 p.2 h)

/-- Claim C2: for any sequence of cache insertions starting from the empty
cache the cache never holds more than CACHE_MAX_SIZE (100) entries, and an
insertion of a fresh key performed while the cache already holds exactly
CACHE_MAX_SIZE entries first evicts exactly the earliest-inserted entry
(the head of the insertion order) and then appends the new entry at the
tail. -/
theorem cache_bounded_and_evicts_oldest :
    (∀ ops : List (String × List Nat),
        (ops.foldl (fun c p => cacheInsert c p.1 p.2) []).length ≤ CACHE_MAX_SIZE)
    ∧ (∀ (c : Cache) (k : String) (v : List Nat),
        c.length = CACHE_MAX_SIZE → mapHas c k = false → v.length < 1024 * 1024 →
        cacheInsert c k v = c.tail ++ [(k, v)]) := by
  constructor
  · intro ops
    exact cacheInsert_foldl_le ops [] (by simp [CACHE_MAX_SIZE])
  · intro c k v hlen hfresh hsz
    cases c with
    | nil => simp [CACHE_MAX_SIZE] at hlen
    | cons p t =>
      unfold cacheInsert
      rw [if_pos hsz, if_pos (by omega)]
      simp only [firstKey, List.head?_cons, Option.map_some', mapDelete_head]
      have ht : mapHas t k = false := by
        rw [mapHas, List.any_cons, Bool.or_eq_false_iff] at hfresh
        exact hfresh.2
      rw [mapSet, if_neg (by simp [ht])]
      rfl

/-- Witness for C2 at a concrete full cache and a fresh key. -/
theorem cache_bounded_and_evicts_oldest_witness :
    cacheInsert c100 "newkey" [1, 2] = c100.tail ++ [("newkey", [1, 2])] :=
  cache_bounded_and_evicts_oldest.2 c100 "newkey" [1, 2]
    (by decide) (by decide) (by decide)

/-- Claim C10: two distinct synthesis requests (here differing in text and
languageCode) map to the same cache fingerprint, because the key is the
underscore-joined concatenation of the fields with no escaping; after the
first request's audio is cached, a lookup for the second request replays
the audio stored for the first. -/
theorem fingerprint_collision :
    reqU ≠ reqV ∧ cacheKey reqU = cacheKey reqV
    ∧ dataPayloads (handleSynthServer
        (handleSynthServer [] reqU (.success [[9, 9]])).2 reqV (.success [[7]])).1
      = [[9, 9]] := by
  decide

/-- Counterexample to claim C4: a synthesis that completes with zero
delivered chunks has an assembled result of length 0, strictly under
1 MiB, yet the cache after completion does not contain it (the insertion
is skipped by the audioChunks.length > 0 guard). -/
theorem small_result_not_always_cached :
    (List.flatten ([] : List (List Nat))).length < 1024 * 1024
    ∧ (handleSynthServer [] reqA (Outcome.success [])).2 = [] := by
  decide

theorem handleSynthServer_hit (c : Cache) (r : SynthRequest) (out : Outcome)
    (h : mapHas c (cacheKey r) = true) :
    handleSynthServer c r out
      = ([SMsg.audioInfo ctype true, SMsg.chunkHeader 0 true,
          SMsg.audioData ((mapGet c (cacheKey r)).getD []), SMsg.audioComplete], c) := by
  unfold handleSynthServer
  rw [if_pos h]

theorem handleSynthServer_miss_success (c : Cache) (r : SynthRequest)
    (cs : List (List Nat)) (h : mapHas c (cacheKey r) = false) :
    handleSynthServer c r (.success cs)
      = (SMsg.audioInfo ctype false :: chunkMsgs cs 0
           ++ [SMsg.chunkHeader cs.length true, SMsg.audioComplete],
         if 0 < cs.length then cacheInsert c (cacheKey r) cs.flatten else c) := by
  unfold handleSynthServer
  rw [if_neg (by simp [h])]

theorem handleSynthServer_miss_failure (c : Cache) (r : SynthRequest)
    (cs : List (List Nat)) (e : String) (h : mapHas c (cacheKey r) = false) :
    handleSynthServer c r (.failure cs e)
      = (SMsg.audioInfo ctype false :: chunkMsgs cs 0 ++ [SMsg.errorMsg e], c) := by
  unfold handleSynthServer
  rw [if_neg (by simp [h])]

theorem mapHas_of_mapGet (c : Cache) (k : String) (b : List Nat)
    (h : mapGet c k = some b) : mapHas c k = true := by
  rw [mapGet] at h
  obtain ⟨p, hp, hpb⟩ := Option.map_eq_some'.mp h
  rw [mapHas, List.any_eq_true]
  have hpk := List.find?_some hp
  exact ⟨p, List.mem_of_find?_eq_some hp, hpk⟩

/-- Claim C4 (amended): for a completed synthesis on a cache miss, an
assembled result of total byte length at least 1 MiB is never inserted
(the cache is unchanged, so the result is not present afterwards); a
result strictly under 1 MiB assembled from at least one delivered chunk
is inserted under the request's key; and a completed synthesis that
delivered zero chunks is never inserted regardless of its (zero) size —
the last case is what the counterexample forces onto the original claim. -/
theorem cache_size_guard (c : Cache) (r : SynthRequest) (cs : List (List Nat))
    (hfresh : mapHas c (cacheKey r) = false) :
    (1024 * 1024 ≤ cs.flatten.length → (handleSynthServer c r (.success cs)).2 = c)
    ∧ (cs ≠ [] → cs.flatten.length < 1024 * 1024 →
        mapGet (handleSynthServer c r (.success cs)).2 (cacheKey r) = some cs.flatten)
    ∧ (cs = [] → (handleSynthServer c r (.success cs)).2 = c) := by
  rw [handleSynthServer_miss_success c r cs hfresh]
  refine ⟨?_, ?_, ?_⟩
  · intro hbig
    simp only
    split
    · unfold cacheInsert
      rw [if_neg (by omega)]
    · rfl
  · intro hne hsz
    have hpos : 0 < cs.length := List.length_pos.mpr hne
    simp only [if_pos hpos]
    exact mapGet_cacheInsert_fresh c (cacheKey r) cs.flatten hsz hfresh
  · intro hnil
    subst hnil
    rfl

/-- Witness for the amended C4: a two-chunk result under 1 MiB is present
in the cache after completion. -/
theorem cache_size_guard_witness :
    mapGet (handleSynthServer [] reqA (Outcome.success [[1], [2]])).2 (cacheKey reqA)
      = some (([[1], [2]] : List (List Nat)).flatten) :=
  (cache_size_guard [] reqA [[1], [2]] (by decide)).2.1 (by decide) (by decide)

/-- Claim C3: when a synthesis completes on a cache miss with at least one
chunk and a result under 1 MiB, the cache afterwards maps the request's
fingerprint to exactly the concatenation of the delivered chunks, and a
later request with the identical fingerprint replays exactly that stored
byte sequence as its (single) audio payload — no re-encoding. -/
theorem cache_roundtrip (c : Cache) (r : SynthRequest) (cs : List (List Nat))
    (o : Outcome) (hfresh : mapHas c (cacheKey r) = false) (hne : cs ≠ [])
    (hsz : cs.flatten.length < 1024 * 1024) :
    mapGet (handleSynthServer c r (.success cs)).2 (cacheKey r) = some cs.flatten
    ∧ dataPayloads (handleSynthServer
        (handleSynthServer c r (.success cs)).2 r o).1 = [cs.flatten] := by
  have hget : mapGet (handleSynthServer c r (.success cs)).2 (cacheKey r)
      = some cs.flatten := by
    rw [handleSynthServer_miss_success c r cs hfresh]
    simp only [if_pos (List.length_pos.mpr hne)]
    exact mapGet_cacheInsert_fresh c (cacheKey r) cs.flatten hsz hfresh
  refine ⟨hget, ?_⟩
  rw [handleSynthServer_hit _ r o (mapHas_of_mapGet _ _ _ hget), hget]
  simp [dataPayloads]

/-- Witness for C3 at a concrete request and chunk list. -/
theorem cache_roundtrip_witness :
    mapGet (handleSynthServer [] reqB (Outcome.success [[3], [4, 5]])).2 (cacheKey reqB)
      = some (([[3], [4, 5]] : List (List Nat)).flatten)
    ∧ dataPayloads (handleSynthServer
        (handleSynthServer [] reqB (Outcome.success [[3], [4, 5]])).2 reqB
        (Outcome.success [[6]])).1 = [([[3], [4, 5]] : List (List Nat)).flatten] :=
  cache_roundtrip [] reqB [[3], [4, 5]] (Outcome.success [[6]])
    (by decide) (by decide) (by decide)

/-- Claim C7: a cache hit replays with the same completion shape as a live
synthesis — an audio-info carrying cached true first, then a single
full-blob delivery marked complete (one header with sequence number 0 and
isLastChunk true followed by the stored bytes) and audio-complete — with
no upstream call made (the upstream outcome is irrelevant to the
result); and for two identical back-to-back requests, the first (under
1 MiB, at least one chunk) populates the cache and the second is served
from it with exactly that hit shape. -/
theorem cache_hit_replay :
    (∀ (c : Cache) (r : SynthRequest) (o o' : Outcome) (blob : List Nat),
        mapGet c (cacheKey r) = some blob →
        (handleSynthServer c r o).1
          = [SMsg.audioInfo ctype true, SMsg.chunkHeader 0 true,
             SMsg.audioData blob, SMsg.audioComplete]
        ∧ handleSynthServer c r o = handleSynthServer c r o')
    ∧ (∀ (c : Cache) (r : SynthRequest) (cs : List (List Nat)) (o : Outcome),
        mapHas c (cacheKey r) = false → cs ≠ [] → cs.flatten.length < 1024 * 1024 →
        (handleSynthServer (handleSynthServer c r (.success cs)).2 r o).1
          = [SMsg.audioInfo ctype true, SMsg.chunkHeader 0 true,
             SMsg.audioData cs.flatten, SMsg.audioComplete]) := by
  constructor
  · intro c r o o' blob hget
    have hhas := mapHas_of_mapGet _ _ _ hget
    rw [handleSynthServer_hit c r o hhas, handleSynthServer_hit c r o' hhas, hget]
    exact ⟨rfl, rfl⟩
  · intro c r cs o hfresh hne hsz
    have hget : mapGet (handleSynthServer c r (.success cs)).2 (cacheKey r)
        = some cs.flatten := by
      rw [handleSynthServer_miss_success c r cs hfresh]
      simp only [if_pos (List.length_pos.mpr hne)]
      exact mapGet_cacheInsert_fresh c (cacheKey r) cs.flatten hsz hfresh
    rw [handleSynthServer_hit _ r o (mapHas_of_mapGet _ _ _ hget), hget]
    rfl

/-- Witness for C7: concrete back-to-back identical requests, and a hit on
the resulting cache. -/
theorem cache_hit_replay_witness :
    (handleSynthServer (handleSynthServer [] reqC (.success [[8]])).2 reqC
        (.success [[2]])).1
      = [SMsg.audioInfo ctype true, SMsg.chunkHeader 0 true,
         SMsg.audioData (([[8]] : List (List Nat)).flatten), SMsg.audioComplete]
    ∧ (handleSynthServer [(cacheKey reqA, [5])] reqA (.success [[1]])).1
      = [SMsg.audioInfo ctype true, SMsg.chunkHeader 0 true,
         SMsg.audioData [5], SMsg.audioComplete] := by
  constructor
  · exact cache_hit_replay.2 [] reqC [[8]] (.success [[2]])
      (by decide) (by decide) (by decide)
  · exact (cache_hit_replay.1 [(cacheKey reqA, [5])] reqA (.success [[1]])
      (.success [[1]]) [5] (by decide)).1

theorem dataPayloads_append (a b : List SMsg) :
    dataPayloads (a ++ b) = dataPayloads a ++ dataPayloads b :=
  List.filterMap_append a b _

theorem headerPairs_append (a b : List SMsg) :
    headerPairs (a ++ b) = headerPairs a ++ headerPairs b :=
  List.filterMap_append a b _

theorem dataPayloads_chunkMsgs : ∀ (cs : List (List Nat)) (n : Nat),
    dataPayloads (chunkMsgs cs n) = cs := by
  intro cs
  induction cs with
  | nil => intro n; rfl
  | cons c cs ih =>
    intro n
    show c :: dataPayloads (chunkMsgs cs (n + 1)) = c :: cs
    rw [ih (n + 1)]

theorem headerPairs_chunkMsgs : ∀ (cs : List (List Nat)) (n : Nat),
    headerPairs (chunkMsgs cs n) = (List.range' n cs.length).map fun i => (i, false) := by
  intro cs
  induction cs with
  | nil => intro n; rfl
  | cons c cs ih =>
    intro n
    show (n, false) :: headerPairs (chunkMsgs cs (n + 1))
      = (List.range' n (cs.length + 1)).map fun i => (i, false)
    rw [ih (n + 1), List.range'_succ, List.map_cons]

theorem audioComplete_not_mem_chunkMsgs : ∀ (cs : List (List Nat)) (n : Nat),
    SMsg.audioComplete ∉ chunkMsgs cs n := by
  intro cs
  induction cs with
  | nil => intro n; simp [chunkMsgs]
  | cons c cs ih =>
    intro n
    simp only [chunkMsgs, List.mem_cons]
    push_neg
    exact ⟨by simp, by simp, ih (n + 1)⟩

theorem binMsgs_append (a b : List BMsg) :
    binMsgs (a ++ b) = binMsgs a ++ binMsgs b :=
  List.filterMap_append a b _

theorem binMsgs_binChunkMsgs : ∀ (cs : List (List Nat)) (s : Nat),
    binMsgs (binChunkMsgs cs s)
      = ((List.range' s cs.length).zip cs).map fun p => toLE32 p.1 ++ [0] ++ p.2 := by
  intro cs
  induction cs with
  | nil => intro s; rfl
  | cons c cs ih =>
    intro s
    show (toLE32 s ++ [0] ++ c) :: binMsgs (binChunkMsgs cs (s + 1))
      = ((List.range' s (cs.length + 1)).zip (c :: cs)).map fun p => toLE32 p.1 ++ [0] ++ p.2
    rw [ih (s + 1), List.range'_succ, List.zip_cons_cons, List.map_cons]

theorem jsonComplete_not_mem_binChunkMsgs : ∀ (cs : List (List Nat)) (s : Nat),
    BMsg.jsonComplete ∉ binChunkMsgs cs s := by
  intro cs
  induction cs with
  | nil => intro s; simp [binChunkMsgs]
  | cons c cs ih =>
    intro s
    simp only [binChunkMsgs, List.mem_cons]
    push_neg
    exact ⟨by simp, ih (s + 1)⟩

theorem chain'_lt_range' (s n : Nat) :
    List.Chain' (· < ·) (List.range' s n) :=
  (List.pairwise_lt_range' s n).chain'

/-- Claim C5: when the upstream call errors mid-stream after delivering
some chunks, the client receives exactly the already-delivered chunks
(each announced with its header) followed by the error message, no
audio-complete is emitted for that request, and nothing is cached; the
same holds for the binary variant's synthesizeText stream error handler
(no terminal chunk, no audio-complete JSON). -/
theorem midstream_error_trace (c : Cache) (r : SynthRequest) (cs : List (List Nat))
    (e : String) (s0 : Nat) (hfresh : mapHas c (cacheKey r) = false) :
    (handleSynthServer c r (.failure cs e)).1
      = SMsg.audioInfo ctype false :: chunkMsgs cs 0 ++ [SMsg.errorMsg e]
    ∧ dataPayloads (handleSynthServer c r (.failure cs e)).1 = cs
    ∧ SMsg.audioComplete ∉ (handleSynthServer c r (.failure cs e)).1
    ∧ (handleSynthServer c r (.failure cs e)).2 = c
    ∧ (synthesizeText s0 (.failure cs e)).1
      = BMsg.audioInfo ctype :: binChunkMsgs cs s0 ++ [BMsg.jsonError e]
    ∧ BMsg.jsonComplete ∉ (synthesizeText s0 (.failure cs e)).1 := by
  rw [handleSynthServer_miss_failure c r cs e hfresh]
  refine ⟨rfl, ?_, ?_, rfl, rfl, ?_⟩
  · show dataPayloads (chunkMsgs cs 0 ++ [SMsg.errorMsg e]) = cs
    rw [dataPayloads_append, dataPayloads_chunkMsgs]
    simp [dataPayloads]
  · simp [audioComplete_not_mem_chunkMsgs]
  · show BMsg.jsonComplete ∉
      BMsg.audioInfo ctype :: binChunkMsgs cs s0 ++ [BMsg.jsonError e]
    simp [jsonComplete_not_mem_binChunkMsgs]

/-- Witness for C5 at a concrete two-chunk failure. -/
theorem midstream_error_trace_witness :
    dataPayloads (handleSynthServer [] reqA (.failure [[1], [2]] "boom")).1 = [[1], [2]]
    ∧ SMsg.audioComplete ∉ (handleSynthServer [] reqA (.failure [[1], [2]] "boom")).1
    ∧ BMsg.jsonComplete ∉ (synthesizeText 7 (.failure [[1], [2]] "boom")).1 := by
  have h := midstream_error_trace [] reqA [[1], [2]] "boom" 7 (by decide)
  exact ⟨h.2.1, h.2.2.1, h.2.2.2.2.2⟩

theorem decodeLE32_toLE32 (x : Nat) (hx : x < 2 ^ 32) (rest : List Nat) :
    decodeLE32 ((toLE32 x ++ rest).take 4) = x := by
  simp [toLE32, decodeLE32, List.getD]
  omega

/-- Claim C8: for a single successfully completed request, the envelope
variant emits chunk headers with strictly increasing sequence numbers
(0, 1, ...), exactly one header marked isLastChunk true, and that header
(carrying the chunk count) comes after all others; the binary-packed
variant emits one message per chunk consisting of the 4-byte
little-endian sequence number, a 1-byte flag, then the audio bytes, with
exactly one message carrying flag 1 — the terminal one, with an empty
payload — and the decoded sequence numbers strictly increase. -/
theorem chunk_framing_ordered (c : Cache) (r : SynthRequest) (cs : List (List Nat))
    (s0 : Nat) (hfresh : mapHas c (cacheKey r) = false) :
    headerPairs (handleSynthServer c r (.success cs)).1
      = ((List.range' 0 cs.length).map fun i => (i, false)) ++ [(cs.length, true)]
    ∧ List.Chain' (· < ·) (headerSeqs (handleSynthServer c r (.success cs)).1)
    ∧ ((headerPairs (handleSynthServer c r (.success cs)).1).filter fun p => p.2).length
        = 1
    ∧ binMsgs (synthesizeText s0 (.success cs)).1
      = (((List.range' s0 cs.length).zip cs).map fun p => toLE32 p.1 ++ [0] ++ p.2)
        ++ [toLE32 (s0 + cs.length) ++ [1]]
    ∧ ((binMsgs (synthesizeText s0 (.success cs)).1).filter
        fun b => b.getD 4 0 == 1).length = 1
    ∧ (s0 + cs.length < 2 ^ 32 →
        List.Chain' (· < ·) (msgSeqs (synthesizeText s0 (.success cs)).1)) := by
  have h1 : headerPairs (handleSynthServer c r (.success cs)).1
      = ((List.range' 0 cs.length).map fun i => (i, false)) ++ [(cs.length, true)] := by
    rw [handleSynthServer_miss_success c r cs hfresh]
    show headerPairs (chunkMsgs cs 0
      ++ [SMsg.chunkHeader cs.length true, SMsg.audioComplete]) = _
    rw [headerPairs_append, headerPairs_chunkMsgs]
    rfl
  have h4 : binMsgs (synthesizeText s0 (.success cs)).1
      = (((List.range' s0 cs.length).zip cs).map fun p => toLE32 p.1 ++ [0] ++ p.2)
        ++ [toLE32 (s0 + cs.length) ++ [1]] := by
    show binMsgs (binChunkMsgs cs s0
      ++ [BMsg.binary (toLE32 (s0 + cs.length) ++ [1] ++ []), BMsg.jsonComplete]) = _
    rw [binMsgs_append, binMsgs_binChunkMsgs]
    rfl
  refine ⟨h1, ?_, ?_, h4, ?_, ?_⟩
  · rw [headerSeqs, h1, List.map_append, List.map_map]
    have hfst : (List.range' 0 cs.length).map (Prod.fst ∘ fun i => (i, false))
        = List.range' 0 cs.length := by
      rw [show (Prod.fst ∘ fun i : Nat => (i, false)) = id from rfl, List.map_id]
    rw [hfst]
    show List.Chain' (· < ·) (List.range' 0 cs.length ++ [cs.length])
    have := List.range'_1_concat 0 cs.length
    rw [Nat.zero_add] at this
    rw [← this]
    exact chain'_lt_range' 0 (cs.length + 1)
  · rw [h1, List.filter_append]
    have hnil : (((List.range' 0 cs.length).map fun i => (i, false)).filter
        fun p => p.2) = [] := by
      rw [List.filter_eq_nil_iff]
      intro p hp
      obtain ⟨i, _, rfl⟩ := List.mem_map.mp hp
      exact Bool.false_ne_true
    rw [hnil]
    rfl
  · rw [h4, List.filter_append]
    have hnil : ((((List.range' s0 cs.length).zip cs).map
        fun p => toLE32 p.1 ++ [0] ++ p.2).filter fun b => b.getD 4 0 == 1) = [] := by
      rw [List.filter_eq_nil_iff]
      intro b hb
      obtain ⟨p, _, rfl⟩ := List.mem_map.mp hb
      exact Bool.false_ne_true
    rw [hnil]
    rfl
  · intro hb
    have hmap : (((List.range' s0 cs.length).zip cs).map
        fun p => toLE32 p.1 ++ [0] ++ p.2).map (fun b => decodeLE32 (b.take 4))
        = List.range' s0 cs.length := by
      rw [List.map_map]
      have hcg : ∀ p ∈ (List.range' s0 cs.length).zip cs,
          ((fun b => decodeLE32 (b.take 4)) ∘ fun p => toLE32 p.1 ++ [0] ++ p.2) p
            = p.1 := by
        intro p hp
        have hmem : p.1 ∈ List.range' s0 cs.length := (List.of_mem_zip hp).1
        rw [List.mem_range'_1] at hmem
        have hd := decodeLE32_toLE32 p.1 (by omega) ([0] ++ p.2)
        simpa [List.append_assoc] using hd
      rw [List.map_congr_left hcg]
      exact List.map_fst_zip _ _ (by simp)
    rw [msgSeqs, h4, List.map_append, hmap]
    have hterm : ([toLE32 (s0 + cs.length) ++ [1]].map fun b => decodeLE32 (b.take 4))
        = [s0 + cs.length] := by
      rw [List.map_cons, List.map_nil, decodeLE32_toLE32 (s0 + cs.length) hb [1]]
    rw [hterm, ← List.range'_1_concat]
    exact chain'_lt_range' s0 (cs.length + 1)

/-- Witness for C8 at a concrete two-chunk success starting from a
nonzero connection counter. -/
theorem chunk_framing_ordered_witness :
    headerPairs (handleSynthServer [] reqA (.success [[5], [6]])).1
      = ((List.range' 0 2).map fun i => (i, false)) ++ [(2, true)]
    ∧ List.Chain' (· < ·) (msgSeqs (synthesizeText 3 (.success [[5], [6]])).1) := by
  have h := chunk_framing_ordered [] reqA [[5], [6]] 3 (by decide)
  exact ⟨h.1, h.2.2.2.2.2 (by decide)⟩

theorem msgSeqs_binChunkMsgs (cs : List (List Nat)) (s : Nat)
    (hb : s + cs.length < 2 ^ 32) :
    msgSeqs (binChunkMsgs cs s) = List.range' s cs.length := by
  rw [msgSeqs, binMsgs_binChunkMsgs, List.map_map]
  have hcg : ∀ p ∈ (List.range' s cs.length).zip cs,
      ((fun b => decodeLE32 (b.take 4)) ∘ fun p => toLE32 p.1 ++ [0] ++ p.2) p
        = p.1 := by
    intro p hp
    have hmem : p.1 ∈ List.range' s cs.length := (List.of_mem_zip hp).1
    rw [List.mem_range'_1] at hmem
    have hd := decodeLE32_toLE32 p.1 (by omega) ([0] ++ p.2)
    simpa [List.append_assoc] using hd
  rw [List.map_congr_left hcg]
  exact List.map_fst_zip _ _ (by simp)

theorem binMsgs_cons_info (ct : String) (ms : List BMsg) :
    binMsgs (BMsg.audioInfo ct :: ms) = binMsgs ms := rfl

theorem synthesizeText_counter (s0 : Nat) (o : Outcome) :
    (synthesizeText s0 o).2 = s0 + (chunksOf o).length := by
  cases o <;> rfl

theorem msgSeqs_synth_success (s0 : Nat) (cs : List (List Nat))
    (hb : s0 + cs.length < 2 ^ 32) :
    msgSeqs (synthesizeText s0 (.success cs)).1 = List.range' s0 (cs.length + 1) := by
  have hbin : binMsgs (synthesizeText s0 (.success cs)).1
      = binMsgs (binChunkMsgs cs s0) ++ [toLE32 (s0 + cs.length) ++ [1] ++ []] := by
    simp only [synthesizeText]
    rw [binMsgs_append, binMsgs_cons_info]
    rfl
  rw [msgSeqs, hbin, List.map_append]
  rw [show (binMsgs (binChunkMsgs cs s0)).map (fun b => decodeLE32 (b.take 4))
    = msgSeqs (binChunkMsgs cs s0) from rfl]
  rw [msgSeqs_binChunkMsgs cs s0 hb, List.map_cons, List.map_nil]
  have hd : decodeLE32 ((toLE32 (s0 + cs.length) ++ [1] ++ []).take 4)
      = s0 + cs.length := by
    have h0 := decodeLE32_toLE32 (s0 + cs.length) hb ([1] ++ [])
    simpa [List.append_assoc] using h0
  rw [hd, ← List.range'_1_concat]

theorem msgSeqs_synth_failure (s0 : Nat) (cs : List (List Nat)) (e : String)
    (hb : s0 + cs.length < 2 ^ 32) :
    msgSeqs (synthesizeText s0 (.failure cs e)).1 = List.range' s0 cs.length := by
  have hbin : binMsgs (synthesizeText s0 (.failure cs e)).1
      = binMsgs (binChunkMsgs cs s0) := by
    simp only [synthesizeText]
    rw [binMsgs_append, binMsgs_cons_info]
    simp [binMsgs]
  rw [msgSeqs, hbin]
  rw [show (binMsgs (binChunkMsgs cs s0)).map (fun b => decodeLE32 (b.take 4))
    = msgSeqs (binChunkMsgs cs s0) from rfl]
  exact msgSeqs_binChunkMsgs cs s0 hb

theorem msgSeqs_append (a b : List BMsg) :
    msgSeqs (a ++ b) = msgSeqs a ++ msgSeqs b := by
  rw [msgSeqs, msgSeqs, msgSeqs, binMsgs_append, List.map_append]

theorem chain_le_range'_glue (s m : Nat) (rest : List Nat)
    (hrest : List.Chain' (· ≤ ·) rest)
    (hhead : ∀ y ∈ rest.head?, s + m - 1 ≤ y ∧ s ≤ y) :
    List.Chain' (· ≤ ·) (List.range' s m ++ rest)
    ∧ ∀ y ∈ (List.range' s m ++ rest).head?, s ≤ y := by
  constructor
  · rw [List.chain'_append]
    refine ⟨List.Chain'.imp (fun a b h => le_of_lt h) (chain'_lt_range' s m),
      hrest, ?_⟩
    intro x hx y hy
    cases m with
    | zero => simp at hx
    | succ mm =>
      rw [List.range'_1_concat, List.getLast?_concat] at hx
      simp at hx
      subst hx
      have h1 := (hhead y hy).1
      omega
  · intro y hy
    rw [List.head?_append] at hy
    cases m with
    | zero =>
      simp at hy
      have h2 := (hhead y hy).2
      omega
    | succ mm =>
      rw [List.range'_succ] at hy
      simp at hy
      omega

theorem runBinary_counter : ∀ (os : List Outcome) (s0 : Nat),
    (runBinary s0 os).2 = s0 + totalChunks os := by
  intro os
  induction os with
  | nil => intro s0; simp [runBinary, totalChunks]
  | cons o os ih =>
    intro s0
    rw [show (runBinary s0 (o :: os)).2 = (runBinary (synthesizeText s0 o).2 os).2
      from rfl]
    rw [ih, synthesizeText_counter]
    simp [totalChunks]
    omega

theorem runBinary_chain : ∀ (os : List Outcome) (s0 : Nat),
    s0 + totalChunks os < 2 ^ 32 →
    List.Chain' (· ≤ ·) (msgSeqs (runBinary s0 os).1)
    ∧ ∀ y ∈ (msgSeqs (runBinary s0 os).1).head?, s0 ≤ y := by
  intro os
  induction os with
  | nil =>
    intro s0 _
    exact ⟨List.chain'_nil, by simp [runBinary, msgSeqs, binMsgs]⟩
  | cons o os ih =>
    intro s0 hb
    have htot : totalChunks (o :: os) = (chunksOf o).length + totalChunks os := by
      simp [totalChunks]
    rw [htot] at hb
    have ihh := ih (s0 + (chunksOf o).length) (by omega)
    have hstep : (runBinary s0 (o :: os)).1
        = (synthesizeText s0 o).1 ++ (runBinary (synthesizeText s0 o).2 os).1 := rfl
    rw [hstep, synthesizeText_counter, msgSeqs_append]
    cases o with
    | success cs =>
      simp only [chunksOf] at ihh ⊢
      rw [msgSeqs_synth_success s0 cs (by simp only [chunksOf] at hb; omega)]
      refine chain_le_range'_glue s0 (cs.length + 1) _ ihh.1 ?_
      intro y hy
      have h3 := ihh.2 y hy
      omega
    | failure cs e =>
      simp only [chunksOf] at ihh ⊢
      rw [msgSeqs_synth_failure s0 cs e (by simp only [chunksOf] at hb; omega)]
      refine chain_le_range'_glue s0 cs.length _ ihh.1 ?_
      intro y hy
      have h3 := ihh.2 y hy
      omega

/-- Counterexample to claim C9: in the envelope variant (server.js) the
sequence counter is declared per request, so two back-to-back one-chunk
requests on the same connection emit header sequence numbers 0, 1, 0, 1 —
the counter restarts at 0 for the second request and the numbers are not
strictly increasing across the connection's lifetime; in the binary
variant (part_000) the end handler does not increment the counter after
the terminal chunk, so the same scenario emits 0, 1, 1, 2 — also not
strictly increasing. -/
theorem seq_not_increasing_across_requests :
    headerSeqs (runServer [] [(reqA, .success [[1]]), (reqB, .success [[2]])]).1
      = [0, 1, 0, 1]
    ∧ ¬ List.Chain' (· < ·)
        (headerSeqs (runServer [] [(reqA, .success [[1]]), (reqB, .success [[2]])]).1)
    ∧ msgSeqs (runBinary 0 [.success [[1]], .success [[2]]]).1 = [0, 1, 1, 2]
    ∧ ¬ List.Chain' (· < ·)
        (msgSeqs (runBinary 0 [.success [[1]], .success [[2]]]).1) := by
  have h1 : headerSeqs (runServer [] [(reqA, .success [[1]]),
      (reqB, .success [[2]])]).1 = [0, 1, 0, 1] := by decide
  have h2 : msgSeqs (runBinary 0 [.success [[1]], .success [[2]]]).1
      = [0, 1, 1, 2] := by decide
  refine ⟨h1, ?_, h2, ?_⟩
  · rw [h1]
    simp [List.chain'_cons, List.chain'_singleton]
  · rw [h2]
    simp [List.chain'_cons, List.chain'_singleton]

/-- Claim C9 (amended): in the envelope variant the sequence counter is
per-request — each cache-miss success emits header sequence numbers
0 .. n regardless of the connection's history; in the binary-packed
variant the counter is per-connection, reset only at connection creation
(runBinary threads it from 0), never decreases across the lifetime, and
the emitted binary sequence numbers are nondecreasing across the whole
connection (strict increase holds only within a single request, the
terminal marker's number being reused by the next request's first
chunk). -/
theorem seq_semantics_per_variant (c : Cache) (r : SynthRequest)
    (cs : List (List Nat)) (os : List Outcome) (s0 : Nat)
    (hfresh : mapHas c (cacheKey r) = false) :
    headerSeqs (handleSynthServer c r (.success cs)).1
      = List.range' 0 (cs.length + 1)
    ∧ s0 ≤ (runBinary s0 os).2
    ∧ (s0 + totalChunks os < 2 ^ 32 →
        List.Chain' (· ≤ ·) (msgSeqs (runBinary s0 os).1)) := by
  refine ⟨?_, ?_, ?_⟩
  · rw [handleSynthServer_miss_success c r cs hfresh]
    show headerSeqs (chunkMsgs cs 0
      ++ [SMsg.chunkHeader cs.length true, SMsg.audioComplete]) = _
    rw [headerSeqs, headerPairs_append, headerPairs_chunkMsgs, List.map_append,
      List.map_map]
    rw [show (Prod.fst ∘ fun i : Nat => (i, false)) = id from rfl, List.map_id]
    show List.range' 0 cs.length ++ [cs.length] = _
    have h0 := List.range'_1_concat 0 cs.length
    rw [Nat.zero_add] at h0
    rw [h0]
  · rw [runBinary_counter]
    omega
  · intro hb
    exact (runBinary_chain os s0 hb).1

/-- Witness for the amended C9 at concrete runs. -/
theorem seq_semantics_per_variant_witness :
    headerSeqs (handleSynthServer [] reqA (.success [[1]])).1 = List.range' 0 2
    ∧ 5 ≤ (runBinary 5 [.success [[1]], .failure [] "e"]).2
    ∧ List.Chain' (· ≤ ·)
        (msgSeqs (runBinary 5 [.success [[1]], .failure [] "e"]).1) := by
  have h := seq_semantics_per_variant [] reqA [[1]]
    [.success [[1]], .failure [] "e"] 5 (by decide)
  exact ⟨h.1, h.2.1, h.2.2 (by decide)⟩

theorem startedOf_append (a b : List QEvent) :
    startedOf (a ++ b) = startedOf a ++ startedOf b :=
  List.filterMap_append a b _

theorem finishedOf_append (a b : List QEvent) :
    finishedOf (a ++ b) = finishedOf a ++ finishedOf b :=
  List.filterMap_append a b _

theorem startedOf_single_started (r : SynthRequest) :
    startedOf [QEvent.started r] = [r] := rfl

theorem startedOf_single_finished (r : SynthRequest) (ok : Bool) (m : String) :
    startedOf [QEvent.finished r ok m] = [] := rfl

theorem finishedOf_single_started (r : SynthRequest) :
    finishedOf [QEvent.started r] = [] := rfl

theorem finishedOf_single_finished (r : SynthRequest) (ok : Bool) (m : String) :
    finishedOf [QEvent.finished r ok m] = [(r, ok)] := rfl

theorem qinv_pnq {s : ConnState} (h : QInv s) : QInv (processNextInQueue s) := by
  obtain ⟨h1, h2, h3, h4⟩ := h
  cases hq : s.processingQueue with
  | nil =>
    simp only [processNextInQueue, hq, List.isEmpty_nil, Bool.true_or, if_true]
    exact ⟨h1, h2, h3, h4⟩
  | cons a t =>
    cases hp : s.isProcessing with
    | true =>
      simp only [processNextInQueue, hq, hp, Bool.or_true, if_true]
      exact ⟨h1, h2, h3, h4⟩
    | false =>
      have ha : s.active = [] := h1 hp
      simp only [processNextInQueue, hq, hp, List.isEmpty_cons, Bool.or_false,
        Bool.false_eq_true, if_false]
      refine ⟨?_, ?_, ?_, ?_⟩
      · intro hcontra
        simp at hcontra
      · rw [ha]
        simp
      · rw [startedOf_append, startedOf_single_started, h3, hq]
        simp
      · rw [startedOf_append, startedOf_single_started, finishedOf_append,
          finishedOf_single_started, h4]
        simp

theorem qinv_step {s : ConnState} (e : ExtEvent) (h : QInv s) : QInv (stepQ s e) := by
  obtain ⟨h1, h2, h3, h4⟩ := h
  cases e with
  | message r =>
    have hs1 : QInv { s with
        processingQueue := s.processingQueue ++ [r],
        submitted := s.submitted ++ [r] } := by
      refine ⟨h1, h2, ?_, h4⟩
      simp only
      rw [h3, List.append_assoc]
    simp only [stepQ]
    split
    · exact hs1
    · exact qinv_pnq hs1
  | settle ok msg =>
    cases hA : s.active with
    | nil =>
      simp only [stepQ, hA]
      exact ⟨h1, h2, h3, h4⟩
    | cons r rest =>
      have hrest : rest = [] := by
        rw [hA] at h2
        simpa using h2
      subst hrest
      have hs1 : QInv { s with
          active := [],
          isProcessing := false,
          events := s.events ++ [QEvent.finished r ok msg] } := by
        refine ⟨fun _ => rfl, by simp, ?_, ?_⟩
        · simp only
          rw [startedOf_append, startedOf_single_finished, h3]
          simp
        · simp only
          rw [startedOf_append, startedOf_single_finished, finishedOf_append,
            finishedOf_single_finished, h4, hA]
          simp
      simp only [stepQ, hA]
      split
      · exact hs1
      · exact qinv_pnq hs1

theorem startedOf_pair (r : SynthRequest) (ok : Bool) (m : String)
    (a : SynthRequest) :
    startedOf [QEvent.finished r ok m, QEvent.started a] = [a] := rfl

theorem qinv_init : QInv initConn := by
  refine ⟨fun _ => rfl, by simp [initConn], rfl, rfl⟩

theorem qinv_foldl : ∀ (evs : List ExtEvent) (s : ConnState),
    QInv s → QInv (evs.foldl stepQ s) := by
  intro evs
  induction evs with
  | nil => intro s h; exact h
  | cons e es ih =>
    intro s h
    exact ih (stepQ s e) (qinv_step e h)

theorem pnq_submitted (s : ConnState) :
    (processNextInQueue s).submitted = s.submitted := by
  unfold processNextInQueue
  split
  · rfl
  · split <;> rfl

theorem stepQ_submitted (s : ConnState) (e : ExtEvent) :
    (stepQ s e).submitted = s.submitted ++ submittedOf [e] := by
  cases e with
  | message r =>
    simp only [stepQ]
    split
    · rfl
    · rw [pnq_submitted]
      rfl
  | settle ok m =>
    cases hA : s.active with
    | nil =>
      simp only [stepQ, hA]
      simp [submittedOf]
    | cons r rest =>
      simp only [stepQ, hA]
      split
      · simp [submittedOf]
      · rw [pnq_submitted]
        simp [submittedOf]

theorem foldl_submitted : ∀ (evs : List ExtEvent) (s : ConnState),
    (evs.foldl stepQ s).submitted = s.submitted ++ submittedOf evs := by
  intro evs
  induction evs with
  | nil => intro s; simp [submittedOf]
  | cons e es ih =>
    intro s
    rw [List.foldl_cons, ih, stepQ_submitted]
    have hsplit : submittedOf (e :: es) = submittedOf [e] ++ submittedOf es :=
      List.filterMap_append [e] es _
    rw [hsplit, List.append_assoc]

/-- Claim C1: for every sequence of message arrivals and settlements on a
single connection, at most one upstream synthesis call is ever in flight
(the processing flag allows one at a time), the started requests followed
by the still-pending queue are exactly the submitted requests in
submission order (FIFO, no reordering), and the settled (completion or
error notified) requests followed by the in-flight one are exactly the
started requests in order — so completion notifications are observed in
submission order. -/
theorem queue_fifo_and_exclusive (evs : List ExtEvent) :
    (runQueue evs).active.length ≤ 1
    ∧ startedOf (runQueue evs).events ++ (runQueue evs).processingQueue
        = submittedOf evs
    ∧ startedOf (runQueue evs).events
        = (finishedOf (runQueue evs).events).map Prod.fst ++ (runQueue evs).active := by
  have hinv : QInv (runQueue evs) := qinv_foldl evs initConn qinv_init
  obtain ⟨h1, h2, h3, h4⟩ := hinv
  refine ⟨h2, ?_, h4⟩
  have hs : (runQueue evs).submitted = submittedOf evs := by
    have h0 := foldl_submitted evs initConn
    simpa [initConn] using h0
  rw [← h3, hs]

/-- Claim C6: the settlement step of the queue worker treats success and
failure identically as far as queue progress is concerned — the resulting
pending queue, processing flag, in-flight call and started history do not
depend on whether the in-flight request succeeded or failed (the finally
clause clears the flag and advances either way); concretely, a connection
submitting three requests whose first upstream call fails still processes
and settles all three, in order, with independent outcomes. -/
theorem queue_error_isolation :
    (∀ (s : ConnState) (ok : Bool) (msg : String) (ok' : Bool) (msg' : String),
        (stepQ s (.settle ok msg)).processingQueue
            = (stepQ s (.settle ok' msg')).processingQueue
        ∧ (stepQ s (.settle ok msg)).isProcessing
            = (stepQ s (.settle ok' msg')).isProcessing
        ∧ (stepQ s (.settle ok msg)).active = (stepQ s (.settle ok' msg')).active
        ∧ startedOf (stepQ s (.settle ok msg)).events
            = startedOf (stepQ s (.settle ok' msg')).events)
    ∧ finishedOf (runQueue [.message reqA, .message reqB, .message reqC,
        .settle false "boom", .settle true "", .settle true ""]).events
      = [(reqA, false), (reqB, true), (reqC, true)] := by
  constructor
  · intro s ok msg ok' msg'
    cases hA : s.active with
    | nil => simp [stepQ, hA]
    | cons r rest =>
      cases hq : s.processingQueue with
      | nil =>
        simp [stepQ, hA, hq, startedOf_append, startedOf_single_finished]
      | cons a t =>
        simp [stepQ, hA, hq, processNextInQueue, startedOf_append,
          startedOf_single_finished, startedOf_single_started, startedOf_pair]
  · decide
